import Mathlib

/-!
Shallow embedding of the scheduling and status-aggregation core of the
sage-patchbot repository, together with theorems settling the claims about
its specification.

The server side (`src/sage_patchbot/server/serve.py` and the legacy copy
`src/src/serve.py`) contributes `status_order`, `min_status`,
`get_ticket_status` and `prune_pending`; the client side
(`src/src/patchbot.py`) contributes `compare_machines`,
`Patchbot.rate_ticket` and `Patchbot.get_one_ticket`.

Python dictionaries become structures, machine identity vectors become
`List String`, timestamps become `Int` seconds, and a raised exception
becomes `none` (for `ValueError` in `min_status`) or `Except.error`
(for the errors that can escape `rate_ticket` and `get_one_ticket`).
-/

namespace SagePatchbot

/-- Python truthiness of an optional string field read with `dict.get`:
falsy when the key is absent or the value is the empty string. -/
def truthyStr : Option String → Bool
  | none => false
  | some s => !s.isEmpty

/-- Embedding of Python `list.index` restricted to the way the code uses it:
`some i` is the first index at which `a` occurs, `none` models the
`ValueError` raised when `a` is absent. -/
def py_index (a : String) : List String → Option Nat
  | [] => none
  | x :: xs => if x == a then some 0 else (py_index a xs).map (· + 1)

namespace Serve

/-- One report attached to a ticket, with the fields that
`get_ticket_status` and `prune_pending` read: `status`, the `machine`
identity vector, and the report timestamp (`report['time']`, parsed to
seconds). -/
structure Report where
  status : String
  machine : List String
  time : Int
deriving DecidableEq, Repr

/-- The fields of a ticket dictionary read by `get_ticket_status`:
`ticket['spkgs']` and `ticket.get('git_commit')` (absent key modelled
as `none`). -/
structure Ticket where
  spkgs : List String
  git_commit : Option String
deriving DecidableEq, Repr

/-- The `status_order` list of `src/sage_patchbot/server/serve.py`
(12 categories, including `TestsPassedOnRetry`). -/
def status_order : List String :=
  ["New", "ApplyFailed", "BuildFailed", "TestsFailed",
   "PluginFailed", "TestsPassed", "TestsPassedOnRetry", "Pending",
   "PluginOnlyFailed", "PluginOnly", "NoPatch", "Spkg"]

/-- The `status_order` list of the legacy `src/src/serve.py`
(11 categories, without `TestsPassedOnRetry`). -/
def legacy_status_order : List String :=
  ["New", "ApplyFailed", "BuildFailed", "TestsFailed",
   "PluginFailed", "TestsPassed", "Pending",
   "PluginOnlyFailed", "PluginOnly", "NoPatch", "Spkg"]

/-- Embedding of `min_status` over a given order table:
`min(order.index(status) for status in status_list)` followed by
`order[index]`.  The result is `none` when the Python code raises a
`ValueError`: either some status is absent from the table, or the list
is empty (`min` of an empty generator). -/
def min_status_in (order : List String) (status_list : List String) :
    Option String :=
  match status_list.mapM (fun s => py_index s order) with
  | none => none
  | some [] => none
  | some (i :: is) => order[is.foldl min i]?

/-- The `min_status` of `src/sage_patchbot/server/serve.py`. -/
def min_status (status_list : List String) : Option String :=
  min_status_in status_order status_list

/-- The `min_status` of the legacy `src/src/serve.py`. -/
def legacy_min_status (status_list : List String) : Option String :=
  min_status_in legacy_status_order status_list

/-- The optional worker filter performed inside `get_ticket_status`:
`all = [r for r in all if r['machine'] == machine]` when a machine is
given. -/
def machine_filter (reports : List Report) (machine : Option (List String)) :
    List Report :=
  match machine with
  | some m => reports.filter (fun r => r.machine == m)
  | none => reports

/-- Embedding of `get_ticket_status` (identical in both copies of
`serve.py`).  The parameter `current` stands for the value of
`current_reports(ticket, base=base)`, a helper living in `util.py`
outside this snapshot; everything from the worker filter on is the body
of `get_ticket_status` itself.  The result is `none` exactly when the
nested `min_status` call raises. -/
def get_ticket_status (ticket : Ticket) (current : List Report)
    (machine : Option (List String)) : Option (Nat × String × String) :=
  match machine_filter current machine with
  | [] =>
    if ticket.spkgs ≠ [] then some (0, "Spkg", "Spkg")
    else if !truthyStr ticket.git_commit then some (0, "NoPatch", "NoPatch")
    else some (0, "New", "New")
  | r :: rest =>
    let all_r := r :: rest
    let status_list := all_r.map Report.status
    if status_list.dedup.length == 1 then
      some (all_r.length, r.status, r.status)
    else
      match min_status status_list with
      | none => none
      | some single =>
        some (all_r.length, single, String.intercalate "," status_list)

/-- The removal condition applied to one report by `prune_pending`:
the report is Pending and either its machine equals the given one
(`report['machine'] == machine`, false when no machine is given) or it
is older than the timeout (`(now - t).total_seconds() > timeout`). -/
def should_remove (machine : Option (List String)) (timeout now : Int)
    (r : Report) : Bool :=
  r.status == "Pending" &&
    ((match machine with
      | some m => r.machine == m
      | none => false) ||
     now - r.time > timeout)

/-- Embedding of `prune_pending` from `src/sage_patchbot/server/serve.py`:
iterate over a copy of the report list (`for report in list(reports)`)
and call `reports.remove(report)` (removal of the first equal element)
on each report satisfying the condition; default timeout six hours.
The log-store removal that accompanies each deletion is an external
side effect and has no bearing on the returned list. -/
def prune_pending (reports : List Report) (machine : Option (List String))
    (timeout : Option Int) (now : Int) : List Report :=
  let t := timeout.getD (6 * 60 * 60)
  reports.foldl
    (fun acc r => if should_remove machine t now r then acc.erase r else acc)
    reports

/-- The `status_list` local of `get_ticket_status`: the statuses of the
current reports after the optional worker filter, in report order. -/
def status_list (current : List Report) (machine : Option (List String)) :
    List String :=
  (machine_filter current machine).map Report.status

/-- The index translation from the legacy 11-entry `status_order` to the
current 12-entry one: `TestsPassedOnRetry` is inserted at position 6, so
legacy positions from 6 on shift up by one. -/
def emb (i : Nat) : Nat :=
  if i < 6 then i else i + 1

end Serve

namespace Patchbot

/-- The truncation `a[:machine_match]` performed by `compare_machines`
when a prefix bound is given. -/
def truncate (machine_match : Option Nat) (v : List String) : List String :=
  match machine_match with
  | some n => v.take n
  | none => v

/-- Embedding of `compare_machines` from `src/src/patchbot.py`.
Both vectors are truncated to `machine_match` components when that bound
is given; the zip runs over the common length of the *truncated* vectors;
a trailing `1` is appended when the *truncated* vectors have different
lengths.  The Python booleans `x != y` are modelled as the integers the
caller immediately converts them to (`tuple(int(x) for x in ...)`). -/
def compare_machines (a b : List String) (machine_match : Option Nat) :
    List Int :=
  let a := truncate machine_match a
  let b := truncate machine_match b
  let diff := (a.zip b).map (fun p => if p.1 ≠ p.2 then (1 : Int) else 0)
  if a.length ≠ b.length then diff ++ [1] else diff

/-- Python `<` on two lists (tuples) of integers: lexicographic, with a
proper prefix smaller than the longer list. -/
def pyListLt : List Int → List Int → Bool
  | _, [] => false
  | [], _ :: _ => true
  | x :: xs, y :: ys =>
    if x < y then true else if y < x then false else pyListLt xs ys

/-- Python `min(a, b)` on two integer tuples: the second argument only
when it is strictly smaller. -/
def pymin (a b : List Int) : List Int :=
  if pyListLt b a then b else a

/-- The `RatingResult` triple `(uniqueness_vector, bonus_score, -id)`
returned by `rate_ticket`.  The uniqueness component is a tuple of
integers; for the synthetic baseline ticket 0 the source returns
`((100), 100, 0)` whose first component is the plain integer `100`,
modelled here uniformly as the one-element tuple. -/
abbrev Rating := List Int × Int × Int

/-- Python `<` on two `RatingResult` triples: lexicographic, comparing
the uniqueness tuples first, then the scores, then the negated ids. -/
def ratingLt (r s : Rating) : Bool :=
  pyListLt r.1 s.1 ||
    (r.1 == s.1 &&
      (r.2.1 < s.2.1 || (r.2.1 == s.2.1 && r.2.2 < s.2.2)))

/-- One report as read by `rate_ticket`: the `machine` identity vector,
`report.get('git_base')` (absent key as `none`) and the report status. -/
structure PReport where
  machine : List String
  git_base : Option String
  status : String
deriving DecidableEq, Repr

/-- The ticket fields read by `rate_ticket`.  `git_branch` and
`component` are read with `dict.get`, so an absent key is `none`;
`retry` is read with `ticket.get('retry', False)`. -/
structure PTicket where
  id : Nat
  git_branch : Option String
  status : String
  milestone : String
  authors_fullnames : List String
  authors : List String
  participants : List String
  component : Option String
  priority : String
  retry : Bool
deriving DecidableEq, Repr

/-- The worker configuration entries read by `rate_ticket`: the bonus
weight table (`bonus.get(key, 0)` modelled as a total function), the
trusted-author list, the worker's own machine vector and the
`machine_match` prefix bound. -/
structure Config where
  bonus : String → Int
  trusted_authors : List String
  machine : List String
  machine_match : Option Nat

/-- The trusted-author gate loop of `rate_ticket`: walk
`ticket['authors_fullnames']`, returning `none` (the Python `return`
with no value) at the first author outside the trusted list, and
otherwise accumulating `2 * bonus.get(author, 0)` into the rating. -/
def rate_authors (trusted : List String) (bonus : String → Int) :
    List String → Int → Option Int
  | [], rating => some rating
  | a :: rest, rating =>
    if a ∈ trusted then rate_authors trusted bonus rest (rating + 2 * bonus a)
    else none

/-- One iteration of the report-scanning loop of `rate_ticket`.  The
state is `(rating, uniqueness, only_in_base)`, the last component being
the Python local variable `only_in_base`, which is `none` while it has
never been assigned.  `gitDistance` abstracts
`int(subprocess.check_output(["git", "rev-list", "--count", base ++ "..patchbot/base"]))`;
its `none` stands for the `ValueError`/`CalledProcessError` branch that
the source turns into `-1`.  Reading the unassigned `only_in_base` in
`if only_in_base and not any(report_uniqueness)` raises
`UnboundLocalError`, modelled as `Except.error`. -/
def scan_report (cfg : Config) (gitDistance : String → Option Int)
    (st : Int × List Int × Option Int) (report : PReport) :
    Except String (Int × List Int × Option Int) :=
  let rating := st.1
  let uniqueness := st.2.1
  let oib₀ := st.2.2
  let step : Int × Option Int :=
    if truthyStr report.git_base then
      let only_in_base := (gitDistance (report.git_base.getD "")).getD (-1)
      (rating + cfg.bonus "behind" * only_in_base, some only_in_base)
    else (rating, oib₀)
  let rating := step.1
  let ru := compare_machines report.machine cfg.machine cfg.machine_match
  match step.2 with
  | none => .error "UnboundLocalError: local variable only_in_base referenced before assignment"
  | some only_in_base =>
    let ru := if only_in_base ≠ 0 && ru.all (· == 0) then
        [0, 0, 0, 0, 1] else ru
    let uniqueness := pymin uniqueness ru
    let rating := if report.status ≠ "ApplyFailed" then
        rating + cfg.bonus "applies" else rating
    let rating := rating - cfg.bonus "unique"
    .ok (rating, uniqueness, some only_in_base)

/-- Embedding of `Patchbot.rate_ticket` from `src/src/patchbot.py`
(logging omitted).  The `reports` parameter stands for the value of
`self.current_reports(ticket, newer=True)` after the preceding
`prune_pending(ticket)` call, both helpers living in `util.py` outside
this snapshot.  `to_skip` is the cooldown map as an association list and
`now` is `time.time()`.  The result is `.ok none` when the Python code
returns nothing (ineligible ticket), `.ok (some r)` when it returns a
rating triple, and `.error` when it raises. -/
def rate_ticket (cfg : Config) (gitDistance : String → Option Int)
    (to_skip : List (Nat × Int)) (now : Int)
    (t : PTicket) (reports : List PReport) :
    Except String (Option Rating) :=
  if t.id == 0 then .ok (some ([100], 100, 0))
  else if !truthyStr t.git_branch then .ok none
  else if !(["needs_review", "positive_review",
             "needs_info", "needs_work"].contains t.status) then .ok none
  else if ["sage-duplicate/invalid/wontfix", "sage-feature",
           "sage-pending", "sage-wishlist"].contains t.milestone then .ok none
  else if t.authors_fullnames.isEmpty then .ok none
  else
    match rate_authors cfg.trusted_authors cfg.bonus t.authors_fullnames 0 with
    | none => .ok none
    | some rating =>
      let rating := rating + (t.authors.map (fun a => 2 * cfg.bonus a)).sum
      let rating := rating + (t.participants.map (fun p => cfg.bonus p)).sum
      let rating := rating + (match t.component with
        | some c => cfg.bonus c
        | none => 0)
      let rating := rating + cfg.bonus t.status + cfg.bonus t.priority
        + cfg.bonus (toString t.id)
      let init : Int × List Int × Option Int := (rating, [100], none)
      let scanned := if t.retry then .ok init
        else reports.foldlM (scan_report cfg gitDistance) init
      match scanned with
      | .error e => .error e
      | .ok st =>
        let rating := st.1
        let uniqueness := st.2.1
        if uniqueness.all (· == 0) then .ok none
        else
          match to_skip.lookup t.id with
          | some deadline =>
            if deadline < now then
              .ok (some (uniqueness, rating, -(t.id : Int)))
            else .ok none
          | none => .ok (some (uniqueness, rating, -(t.id : Int)))

/-- The ascending comparison used when sorting the surviving
`(rating, ticket)` pairs: a pair precedes another when the other's
rating is not lexicographically smaller. -/
def candidate_le (x y : Rating × Nat) : Bool :=
  !(ratingLt y.1 x.1)

/-- Insertion into a sorted list, the auxiliary step of `sort_le`. -/
def insert_le {α : Type} (le : α → α → Bool) (x : α) : List α → List α
  | [] => [x]
  | y :: ys => if le x y then x :: y :: ys else y :: insert_le le x ys

/-- Ascending comparison sort, modelling Python's `list.sort()` (any
correct ascending sort gives the argmax the selection then reads off
with `all[-1]`). -/
def sort_le {α : Type} (le : α → α → Bool) : List α → List α
  | [] => []
  | x :: xs => insert_le le x (sort_le le xs)

/-- Embedding of `Patchbot.get_one_ticket` from `src/src/patchbot.py`:
rate every fetched ticket, keep the pairs whose rating is not `None`,
sort the pairs in ascending order and take the last one (`all[-1]`).
Tickets are identified by their ids; `rate` stands for
`self.rate_ticket`.  Python compares the `(rating, ticket)` pairs
lexicographically, reaching the ticket dictionaries only when two
ratings are equal; the sort here compares the ratings and keeps the
stable order on ties.  The `.error` result models the `IndexError`
raised by `all[-1]` on an empty list. -/
def get_one_ticket (rate : Nat → Option Rating) (tickets : List Nat) :
    Except String (Rating × Nat) :=
  let rated := tickets.map (fun t => (rate t, t))
  let surv := rated.filterMap (fun rt =>
    match rt.1 with
    | some r => some (r, rt.2)
    | none => none)
  let sorted := sort_le candidate_le surv
  match sorted.getLast? with
  | some best => .ok best
  | none => .error "IndexError: list index out of range"

end Patchbot

/-! Helper lemmas about `py_index` and minimisation over a list of
indices, shared by the `min_status` claims. -/

lemma py_index_lookup {a : String} :
    ∀ {order : List String} {i : Nat},
      py_index a order = some i → order[i]? = some a := by
  intro order
  induction order with
  | nil => intro i h; simp [py_index] at h
  | cons x xs ih =>
    intro i h
    by_cases hx : (x == a) = true
    · simp [py_index, hx] at h
      subst h
      simpa using (eq_of_beq hx)
    · simp [py_index, hx] at h
      obtain ⟨j, hj, rfl⟩ := h
      simpa using ih hj

lemma py_index_mem {a : String} :
    ∀ {order : List String}, a ∈ order →
      ∃ i, py_index a order = some i := by
  intro order
  induction order with
  | nil => intro h; simp at h
  | cons x xs ih =>
    intro h
    by_cases hx : (x == a) = true
    · exact ⟨0, by simp [py_index, hx]⟩
    · have ha : a ∈ xs := by
        rcases List.mem_cons.mp h with h1 | h1
        · exact absurd (by simp [h1]) hx
        · exact h1
      obtain ⟨i, hi⟩ := ih ha
      exact ⟨i + 1, by simp [py_index, hx, hi]⟩

lemma py_index_not_mem {a : String} :
    ∀ {order : List String}, a ∉ order →
      py_index a order = none := by
  intro order
  induction order with
  | nil => intro _; rfl
  | cons x xs ih =>
    intro h
    have hx : (x == a) = false := by
      simp only [beq_eq_false_iff_ne]
      intro hxa
      exact h (hxa ▸ List.mem_cons_self x xs)
    have hxs : a ∉ xs := fun hm => h (List.mem_cons_of_mem x hm)
    simp [py_index, hx, ih hxs]

lemma py_index_lt_length {a : String} :
    ∀ {order : List String} {i : Nat},
      py_index a order = some i → i < order.length := by
  intro order i h
  have := py_index_lookup h
  exact (List.getElem?_eq_some.mp this).1

lemma foldl_min_mem : ∀ (is : List Nat) (i : Nat),
    is.foldl min i ∈ i :: is := by
  intro is
  induction is with
  | nil => intro i; simp
  | cons x xs ih =>
    intro i
    have h := ih (min i x)
    rw [List.foldl_cons]
    rcases List.mem_cons.mp h with h1 | h1
    · rcases min_choice i x with h2 | h2
      · rw [h1, h2]; exact List.mem_cons_self _ _
      · rw [h1, h2]
        exact List.mem_cons_of_mem _ (List.mem_cons_self _ _)
    · exact List.mem_cons_of_mem _ (List.mem_cons_of_mem _ h1)

lemma foldl_min_le_init : ∀ (is : List Nat) (i : Nat),
    is.foldl min i ≤ i := by
  intro is
  induction is with
  | nil => intro i; simp
  | cons x xs ih =>
    intro i
    calc (x :: xs).foldl min i = xs.foldl min (min i x) := rfl
    _ ≤ min i x := ih (min i x)
    _ ≤ i := Nat.min_le_left i x

lemma foldl_min_le_mem : ∀ (is : List Nat) (i j : Nat),
    j ∈ is → is.foldl min i ≤ j := by
  intro is
  induction is with
  | nil => intro i j h; simp at h
  | cons x xs ih =>
    intro i j h
    rcases List.mem_cons.mp h with h1 | h1
    · subst h1
      calc (j :: xs).foldl min i = xs.foldl min (min i j) := rfl
      _ ≤ min i j := foldl_min_le_init xs (min i j)
      _ ≤ j := Nat.min_le_right i j
    · exact ih (min i x) j h1

/-- The element relation between a status list and its index list. -/
def IndexedBy (order : List String) (l : List String) (idxs : List Nat) :
    Prop :=
  List.Forall₂ (fun s i => py_index s order = some i) l idxs

lemma indexedBy_exists {order : List String} :
    ∀ {l : List String}, (∀ s ∈ l, s ∈ order) →
      ∃ idxs, IndexedBy order l idxs := by
  intro l
  induction l with
  | nil => intro _; exact ⟨[], List.Forall₂.nil⟩
  | cons x xs ih =>
    intro h
    obtain ⟨i, hi⟩ := py_index_mem (h x (List.mem_cons_self x xs))
    obtain ⟨idxs, hidxs⟩ := ih (fun s hs => h s (List.mem_cons_of_mem x hs))
    exact ⟨i :: idxs, List.Forall₂.cons hi hidxs⟩

lemma indexedBy_mapM {order : List String} :
    ∀ {l : List String} {idxs : List Nat}, IndexedBy order l idxs →
      l.mapM (fun s => py_index s order) = some idxs := by
  intro l idxs h
  induction h with
  | nil => rfl
  | cons hr _ ih => rw [List.mapM_cons, hr, ih]; rfl

lemma mapM_none_of_mem {order : List String} :
    ∀ {l : List String} {s : String}, s ∈ l → py_index s order = none →
      l.mapM (fun t => py_index t order) = none := by
  intro l
  induction l with
  | nil => intro s h; simp at h
  | cons x xs ih =>
    intro s h hn
    rcases List.mem_cons.mp h with h1 | h1
    · subst h1
      rw [List.mapM_cons, hn]
      rfl
    · rw [List.mapM_cons, ih h1 hn]
      cases py_index x order <;> rfl

lemma indexedBy_mem_right {order : List String} :
    ∀ {l : List String} {idxs : List Nat}, IndexedBy order l idxs →
      ∀ {j : Nat}, j ∈ idxs → ∃ s ∈ l, py_index s order = some j := by
  intro l idxs h
  induction h with
  | nil => intro j hj; simp at hj
  | cons hr _ ih =>
    intro j hj
    rcases List.mem_cons.mp hj with h1 | h1
    · exact ⟨_, List.mem_cons_self _ _, h1 ▸ hr⟩
    · obtain ⟨s, hs, hps⟩ := ih h1
      exact ⟨s, List.mem_cons_of_mem _ hs, hps⟩

lemma indexedBy_mem_left {order : List String} :
    ∀ {l : List String} {idxs : List Nat}, IndexedBy order l idxs →
      ∀ {s : String}, s ∈ l → ∃ j ∈ idxs, py_index s order = some j := by
  intro l idxs h
  induction h with
  | nil => intro s hs; simp at hs
  | cons hr _ ih =>
    intro s hs
    rcases List.mem_cons.mp hs with h1 | h1
    · exact ⟨_, List.mem_cons_self _ _, h1 ▸ hr⟩
    · obtain ⟨j, hj, hpj⟩ := ih h1
      exact ⟨j, List.mem_cons_of_mem _ hj, hpj⟩

/-- Soundness of `min_status_in` on a non-empty list of known statuses:
it returns a member of the list whose index in the order table is
minimal among the indices of all the list's members. -/
lemma min_status_in_sound {order : List String} {l : List String}
    (hne : l ≠ []) (hall : ∀ s ∈ l, s ∈ order) :
    ∃ m i, Serve.min_status_in order l = some m ∧ m ∈ l ∧
      py_index m order = some i ∧
      ∀ t ∈ l, ∀ j, py_index t order = some j → i ≤ j := by
  obtain ⟨idxs, hidxs⟩ := indexedBy_exists hall
  cases l with
  | nil => exact absurd rfl hne
  | cons s ls =>
    cases idxs with
    | nil => cases hidxs
    | cons i0 is =>
      have hmapM := indexedBy_mapM hidxs
      set fm := is.foldl min i0 with hfm
      have hfm_mem : fm ∈ i0 :: is := foldl_min_mem is i0
      obtain ⟨m, hm_mem, hm_idx⟩ := indexedBy_mem_right hidxs hfm_mem
      refine ⟨m, fm, ?_, hm_mem, hm_idx, ?_⟩
      · unfold Serve.min_status_in
        rw [hmapM]
        exact py_index_lookup hm_idx
      · intro t ht j hj
        obtain ⟨j', hj'_mem, hj'⟩ := indexedBy_mem_left hidxs ht
        have : j = j' := by
          rw [hj] at hj'
          exact Option.some.inj hj'
        subst this
        rcases List.mem_cons.mp hj'_mem with h1 | h1
        · subst h1
          exact foldl_min_le_init is j
        · exact foldl_min_le_mem is i0 j h1

/-- `min_status_in` models the `ValueError` raised on a status outside
the order table. -/
lemma min_status_in_none {order : List String} {l : List String}
    {s : String} (hs : s ∈ l) (hn : s ∉ order) :
    Serve.min_status_in order l = none := by
  unfold Serve.min_status_in
  rw [mapM_none_of_mem hs (py_index_not_mem hn)]

/-- C8.  For every non-empty list of status categories, `min_status`
returns an element of the list whose `status_order` index is minimal;
and when some element is absent from `status_order`, the Python code
raises a `ValueError` (modelled as `none`) instead of returning a
value. -/
theorem min_status_min_or_raises :
    ∀ l : List String, l ≠ [] →
      ((∀ s ∈ l, s ∈ Serve.status_order) →
        ∃ m i, Serve.min_status l = some m ∧ m ∈ l ∧
          py_index m Serve.status_order = some i ∧
          ∀ t ∈ l, ∀ j, py_index t Serve.status_order = some j → i ≤ j) ∧
      ((∃ s ∈ l, s ∉ Serve.status_order) → Serve.min_status l = none) := by
  intro l hne
  constructor
  · intro hall
    exact min_status_in_sound hne hall
  · rintro ⟨s, hs, hn⟩
    exact min_status_in_none hs hn

/-- Witness for C8 at concrete inputs. -/
theorem min_status_min_or_raises_witness :
    (∃ m i, Serve.min_status ["TestsPassed", "TestsFailed"] = some m ∧
      m ∈ ["TestsPassed", "TestsFailed"] ∧
      py_index m Serve.status_order = some i ∧
      ∀ t ∈ ["TestsPassed", "TestsFailed"], ∀ j,
        py_index t Serve.status_order = some j → i ≤ j) ∧
    Serve.min_status ["TestsPassed", "Bogus"] = none := by
  constructor
  · exact (min_status_min_or_raises ["TestsPassed", "TestsFailed"]
      (by decide)).1 (by decide)
  · exact (min_status_min_or_raises ["TestsPassed", "Bogus"]
      (by decide)).2 ⟨"Bogus", by decide, by decide⟩

/-! Lemmas relating the legacy and the current `status_order`. -/

lemma py_index_emb :
    ∀ s ∈ Serve.legacy_status_order,
      py_index s Serve.status_order =
        (py_index s Serve.legacy_status_order).map Serve.emb := by
  decide

lemma emb_min (a b : Nat) :
    Serve.emb (min a b) = min (Serve.emb a) (Serve.emb b) := by
  simp only [Serve.emb]
  split_ifs <;> omega

lemma foldl_min_map_emb : ∀ (is : List Nat) (i : Nat),
    (is.map Serve.emb).foldl min (Serve.emb i) =
      Serve.emb (is.foldl min i) := by
  intro is
  induction is with
  | nil => intro i; rfl
  | cons x xs ih =>
    intro i
    simp only [List.map_cons, List.foldl_cons, ← emb_min, ih]

lemma lookup_emb : ∀ k, k < 11 →
    Serve.status_order[Serve.emb k]? =
      Serve.legacy_status_order[k]? := by
  decide

lemma indexedBy_emb :
    ∀ {l : List String} {idxs : List Nat},
      IndexedBy Serve.legacy_status_order l idxs →
      IndexedBy Serve.status_order l (idxs.map Serve.emb) := by
  intro l idxs h
  induction h with
  | nil => exact List.Forall₂.nil
  | @cons s i ls is hr _ ih =>
    have hs : s ∈ Serve.legacy_status_order := by
      have := py_index_lookup hr
      exact List.getElem?_mem this
    have := py_index_emb s hs
    rw [hr] at this
    exact List.Forall₂.cons this ih

/-- C10.  On every non-empty list drawn from the legacy 11-category
order, the legacy and the current `min_status` agree; on a list
containing `TestsPassedOnRetry` the legacy version raises (returns
`none`) while the current version, given categories of the current
table, returns a status. -/
theorem legacy_vs_current_min_status :
    (∀ l : List String, l ≠ [] →
      (∀ s ∈ l, s ∈ Serve.legacy_status_order) →
      Serve.legacy_min_status l = Serve.min_status l) ∧
    (∀ l : List String, "TestsPassedOnRetry" ∈ l →
      Serve.legacy_min_status l = none ∧
      ((∀ s ∈ l, s ∈ Serve.status_order) →
        ∃ m, Serve.min_status l = some m)) := by
  constructor
  · intro l hne hall
    obtain ⟨idxs, hidxs⟩ := indexedBy_exists hall
    have hcur := indexedBy_emb hidxs
    have hmapL := indexedBy_mapM hidxs
    have hmapC := indexedBy_mapM hcur
    cases l with
    | nil => exact absurd rfl hne
    | cons s ls =>
      cases idxs with
      | nil => cases hidxs
      | cons i0 is =>
        show Serve.min_status_in Serve.legacy_status_order (s :: ls) =
          Serve.min_status_in Serve.status_order (s :: ls)
        unfold Serve.min_status_in
        rw [hmapL, hmapC]
        simp only [List.map_cons]
        rw [foldl_min_map_emb]
        have hlt : is.foldl min i0 < 11 := by
          have hmem := foldl_min_mem is i0
          obtain ⟨t, _, ht⟩ := indexedBy_mem_right hidxs hmem
          have := py_index_lt_length ht
          simpa [Serve.legacy_status_order] using this
        exact (lookup_emb _ hlt).symm
  · intro l hmem
    constructor
    · exact min_status_in_none hmem (by decide)
    · intro hall
      have hne : l ≠ [] := List.ne_nil_of_mem hmem
      obtain ⟨m, i, hm, _⟩ := min_status_in_sound hne hall
      exact ⟨m, hm⟩

/-- Witness for C10 at concrete inputs. -/
theorem legacy_vs_current_min_status_witness :
    Serve.legacy_min_status ["Spkg", "TestsFailed", "Pending"] =
      Serve.min_status ["Spkg", "TestsFailed", "Pending"] ∧
    Serve.legacy_min_status ["TestsPassedOnRetry", "TestsFailed"] = none ∧
    (∃ m, Serve.min_status ["TestsPassedOnRetry", "TestsFailed"] = some m) := by
  refine ⟨?_, ?_, ?_⟩
  · exact legacy_vs_current_min_status.1 ["Spkg", "TestsFailed", "Pending"]
      (by decide) (by decide)
  · exact (legacy_vs_current_min_status.2 ["TestsPassedOnRetry", "TestsFailed"]
      (by decide)).1
  · exact (legacy_vs_current_min_status.2 ["TestsPassedOnRetry", "TestsFailed"]
      (by decide)).2 (by decide)

/-! Claims C1 to C3 about `get_ticket_status`. -/

/-- Counterexample for C1: a ticket with no current reports, empty
`spkgs` and no `git_commit` is given the `NoPatch` sentinel, not
`New`. -/
theorem get_ticket_status_new_counterexample :
    Serve.get_ticket_status ⟨[], none⟩ [] none =
      some (0, "NoPatch", "NoPatch") ∧
    Serve.get_ticket_status ⟨[], none⟩ [] none ≠
      some (0, "New", "New") := by
  constructor
  · rfl
  · decide

/-- C1 as amended: with no current reports, empty `spkgs` and no
`git_commit`, `get_ticket_status` returns `(0, "NoPatch", "NoPatch")`
(`New` needs a non-empty `git_commit`). -/
theorem get_ticket_status_no_reports_no_commit :
    ∀ (t : Serve.Ticket) (machine : Option (List String)),
      t.spkgs = [] → t.git_commit = none →
      Serve.get_ticket_status t [] machine =
        some (0, "NoPatch", "NoPatch") := by
  intro t machine h1 h2
  have hf : Serve.machine_filter [] machine = [] := by
    cases machine <;> rfl
  unfold Serve.get_ticket_status
  rw [hf]
  simp [h1, h2, truthyStr]

/-- Witness for the amended C1. -/
theorem get_ticket_status_no_reports_no_commit_witness :
    Serve.get_ticket_status ⟨[], none⟩ [] (some ["arando"]) =
      some (0, "NoPatch", "NoPatch") :=
  get_ticket_status_no_reports_no_commit ⟨[], none⟩ (some ["arando"]) rfl rfl

/-- Counterexample for C2: a ticket with non-empty `spkgs` but with a
current report is given the report's test-derived status, not the
`Spkg` sentinel. -/
theorem spkg_sentinel_counterexample :
    Serve.get_ticket_status ⟨["pkg"], some "abc"⟩
        [⟨"TestsPassed", ["m"], 0⟩] none =
      some (1, "TestsPassed", "TestsPassed") ∧
    Serve.get_ticket_status ⟨["pkg"], some "abc"⟩
        [⟨"TestsPassed", ["m"], 0⟩] none ≠
      some (0, "Spkg", "Spkg") := by
  constructor
  · rfl
  · decide

/-- C2 as amended: the `Spkg` and `NoPatch` sentinels are assigned only
when the ticket has no current reports; when current reports exist the
result is derived from the reports and is independent of `spkgs` and
`git_commit`. -/
theorem sentinel_only_without_reports :
    ∀ (t : Serve.Ticket) (machine : Option (List String)),
      (t.spkgs ≠ [] →
        Serve.get_ticket_status t [] machine = some (0, "Spkg", "Spkg")) ∧
      (t.spkgs = [] → t.git_commit = none →
        Serve.get_ticket_status t [] machine =
          some (0, "NoPatch", "NoPatch")) ∧
      (∀ (t' : Serve.Ticket) (current : List Serve.Report),
        Serve.machine_filter current machine ≠ [] →
        Serve.get_ticket_status t current machine =
          Serve.get_ticket_status t' current machine) := by
  intro t machine
  have hf : Serve.machine_filter [] machine = [] := by
    cases machine <;> rfl
  refine ⟨?_, ?_, ?_⟩
  · intro h1
    unfold Serve.get_ticket_status
    rw [hf]
    simp [h1]
  · intro h1 h2
    unfold Serve.get_ticket_status
    rw [hf]
    simp [h1, h2, truthyStr]
  · intro t' current hne
    unfold Serve.get_ticket_status
    cases hcase : Serve.machine_filter current machine with
    | nil => exact absurd hcase hne
    | cons r rest => rfl

/-- Witness for the amended C2. -/
theorem sentinel_only_without_reports_witness :
    Serve.get_ticket_status ⟨["p"], some "c"⟩ [] none =
      some (0, "Spkg", "Spkg") ∧
    Serve.get_ticket_status ⟨[], none⟩ [] (some ["m"]) =
      some (0, "NoPatch", "NoPatch") ∧
    Serve.get_ticket_status ⟨["p"], some "c"⟩
        [⟨"TestsFailed", ["m"], 0⟩] none =
      Serve.get_ticket_status ⟨[], none⟩
        [⟨"TestsFailed", ["m"], 0⟩] none := by
  refine ⟨?_, ?_, ?_⟩
  · exact (sentinel_only_without_reports ⟨["p"], some "c"⟩ none).1
      (by decide)
  · exact (sentinel_only_without_reports ⟨[], none⟩ (some ["m"])).2.1 rfl rfl
  · exact (sentinel_only_without_reports ⟨["p"], some "c"⟩ none).2.2
      ⟨[], none⟩ [⟨"TestsFailed", ["m"], 0⟩] (by decide)

/-- All elements of a list whose dedup has length one are equal. -/
lemma dedup_length_one_all_eq {sl : List String}
    (h : sl.dedup.length = 1) :
    ∀ x ∈ sl, ∀ y ∈ sl, x = y := by
  obtain ⟨a, ha⟩ := List.length_eq_one.mp h
  intro x hx y hy
  have hx' : x ∈ sl.dedup := List.mem_dedup.mpr hx
  have hy' : y ∈ sl.dedup := List.mem_dedup.mpr hy
  rw [ha] at hx' hy'
  simp only [List.mem_singleton] at hx' hy'
  rw [hx', hy']

/-- Counterexample for C3: with current statuses
`TestsPassed, TestsFailed, TestsPassed` the composite keeps the
repetition; it is not the concatenation of the distinct statuses. -/
theorem composite_repetition_counterexample :
    Serve.get_ticket_status ⟨[], some "abc"⟩
        [⟨"TestsPassed", ["m1"], 0⟩, ⟨"TestsFailed", ["m2"], 0⟩,
         ⟨"TestsPassed", ["m3"], 0⟩] none =
      some (3, "TestsFailed", "TestsPassed,TestsFailed,TestsPassed") ∧
    "TestsPassed,TestsFailed,TestsPassed" ≠ "TestsPassed,TestsFailed" := by
  constructor
  · rfl
  · decide

/-- C3 as amended: on a non-empty filtered report list of known
statuses, the count is the number of current reports, the single status
is `min_status` of the status list, and the composite is the shared
status when all reports agree and otherwise the comma-joined
concatenation of *all* statuses in report order, repetitions
included. -/
theorem get_ticket_status_nonempty_reports :
    ∀ (t : Serve.Ticket) (current : List Serve.Report)
      (machine : Option (List String)),
      Serve.machine_filter current machine ≠ [] →
      (∀ s ∈ Serve.status_list current machine, s ∈ Serve.status_order) →
      ∃ single,
        Serve.min_status (Serve.status_list current machine) = some single ∧
        Serve.get_ticket_status t current machine =
          some ((Serve.machine_filter current machine).length, single,
            if (Serve.status_list current machine).dedup.length = 1
            then single
            else String.intercalate ","
              (Serve.status_list current machine)) := by
  intro t current machine hne hall
  cases hcase : Serve.machine_filter current machine with
  | nil => exact absurd hcase hne
  | cons r rest =>
    have hsl : Serve.status_list current machine =
        (r :: rest).map Serve.Report.status := by
      rw [Serve.status_list, hcase]
    have hslne : (r :: rest).map Serve.Report.status ≠ [] := by simp
    obtain ⟨m, i, hm, hmem, _, _⟩ :=
      min_status_in_sound hslne (hsl ▸ hall)
    have hmin : Serve.min_status ((r :: rest).map Serve.Report.status) =
        some m := hm
    unfold Serve.get_ticket_status
    rw [hcase, hsl]
    by_cases hd : ((r :: rest).map Serve.Report.status).dedup.length = 1
    · have hhead : Serve.Report.status r ∈
          (r :: rest).map Serve.Report.status := by simp
      have hmr : m = r.status :=
        dedup_length_one_all_eq hd m hmem (Serve.Report.status r) hhead
      refine ⟨r.status, by rw [← hmr]; exact hmin, ?_⟩
      rw [List.map_cons] at hd
      simp [hd, List.length_map]
    · refine ⟨m, hmin, ?_⟩
      rw [List.map_cons] at hd hmin
      simp [hd, hmin, List.length_map]

/-- Witness for the amended C3. -/
theorem get_ticket_status_nonempty_reports_witness :
    ∃ single,
      Serve.min_status (Serve.status_list
        [⟨"TestsPassed", ["m1"], 0⟩, ⟨"TestsFailed", ["m2"], 0⟩] none) =
        some single ∧
      Serve.get_ticket_status ⟨[], some "abc"⟩
        [⟨"TestsPassed", ["m1"], 0⟩, ⟨"TestsFailed", ["m2"], 0⟩] none =
        some ((Serve.machine_filter
            [⟨"TestsPassed", ["m1"], 0⟩, ⟨"TestsFailed", ["m2"], 0⟩]
            none).length, single,
          if (Serve.status_list
              [⟨"TestsPassed", ["m1"], 0⟩, ⟨"TestsFailed", ["m2"], 0⟩]
              none).dedup.length = 1
          then single
          else String.intercalate "," (Serve.status_list
            [⟨"TestsPassed", ["m1"], 0⟩, ⟨"TestsFailed", ["m2"], 0⟩]
            none)) :=
  get_ticket_status_nonempty_reports ⟨[], some "abc"⟩
    [⟨"TestsPassed", ["m1"], 0⟩, ⟨"TestsFailed", ["m2"], 0⟩] none
    (by decide) (by decide)

/-! Claim C7 about `prune_pending`. -/

lemma foldl_erase_cons {α : Type} [DecidableEq α] {p : α → Bool} {x : α}
    (hx : p x = false) :
    ∀ (ys acc : List α),
      List.foldl (fun acc r => if p r then acc.erase r else acc)
          (x :: acc) ys
        = x :: List.foldl (fun acc r => if p r then acc.erase r else acc)
          acc ys := by
  intro ys
  induction ys with
  | nil => intro acc; rfl
  | cons r ys ih =>
    intro acc
    by_cases hr : p r = true
    · have hxr : ¬(x == r) = true := by
        intro hbeq
        rw [eq_of_beq hbeq, hr] at hx
        cases hx
      simp only [List.foldl_cons, hr, if_true]
      rw [List.erase_cons_tail hxr]
      exact ih (acc.erase r)
    · simp only [List.foldl_cons, hr, if_false]
      exact ih acc

lemma foldl_erase_eq_filter {α : Type} [DecidableEq α] {p : α → Bool} :
    ∀ l : List α,
      List.foldl (fun acc r => if p r then acc.erase r else acc) l l
        = l.filter (fun r => !p r) := by
  intro l
  induction l with
  | nil => rfl
  | cons x xs ih =>
    by_cases hx : p x = true
    · rw [List.foldl_cons, if_pos hx, List.erase_cons_head, ih]
      simp [List.filter_cons, hx]
    · have hx' : p x = false := eq_false_of_ne_true hx
      rw [List.foldl_cons, if_neg hx, foldl_erase_cons hx' xs xs, ih]
      simp [List.filter_cons, hx']

/-- C7.  `prune_pending` removes exactly the Pending reports that match
the given machine or are older than the timeout (six hours when not
given); every other report stays, in its original relative order. -/
theorem prune_pending_removes_exactly :
    ∀ (reports : List Serve.Report) (machine : Option (List String))
      (timeout : Option Int) (now : Int),
      Serve.prune_pending reports machine timeout now =
        reports.filter (fun r =>
          !Serve.should_remove machine (timeout.getD (6 * 60 * 60)) now r) := by
  intro reports machine timeout now
  unfold Serve.prune_pending
  exact foldl_erase_eq_filter reports

/-! Claim C9 about `compare_machines`. -/

/-- Counterexample for C9: with `a = ["u", "v"]`, `b = ["u"]` and
prefix length 1 the untruncated vectors have different lengths, yet no
trailing `1` is appended — the length check runs on the truncated
vectors. -/
theorem compare_machines_untruncated_counterexample :
    Patchbot.compare_machines ["u", "v"] ["u"] (some 1) = [0] ∧
    (["u", "v"] : List String).length ≠ (["u"] : List String).length ∧
    (Patchbot.compare_machines ["u", "v"] ["u"] (some 1)).getLast? ≠
      some 1 := by
  refine ⟨rfl, by decide, by decide⟩

/-- C9 as amended: `compare_machines` yields the per-component
inequality flags over the common prefix of the *truncated* vectors,
with one trailing `1` appended exactly when the truncated vectors have
different lengths. -/
theorem compare_machines_flags :
    ∀ (a b : List String) (mm : Option Nat),
      (Patchbot.compare_machines a b mm).length =
        min (Patchbot.truncate mm a).length (Patchbot.truncate mm b).length +
          (if (Patchbot.truncate mm a).length =
              (Patchbot.truncate mm b).length then 0 else 1) ∧
      (∀ (i : Nat) (x y : String), (Patchbot.truncate mm a)[i]? = some x →
        (Patchbot.truncate mm b)[i]? = some y →
        (Patchbot.compare_machines a b mm)[i]? =
          some (if x ≠ y then (1 : Int) else 0)) ∧
      ((Patchbot.truncate mm a).length ≠ (Patchbot.truncate mm b).length →
        (Patchbot.compare_machines a b mm).getLast? = some 1) := by
  intro a b mm
  set a' := Patchbot.truncate mm a with ha'
  set b' := Patchbot.truncate mm b with hb'
  set diff := (a'.zip b').map (fun p => if p.1 ≠ p.2 then (1 : Int) else 0)
    with hdiff
  have hcm : Patchbot.compare_machines a b mm =
      if a'.length ≠ b'.length then diff ++ [1] else diff := rfl
  have hdlen : diff.length = min a'.length b'.length := by
    rw [hdiff, List.length_map, List.length_zip]
  refine ⟨?_, ?_, ?_⟩
  · rw [hcm]
    by_cases heq : a'.length = b'.length
    · rw [if_neg (by simp [heq]), if_pos heq, hdlen]
      omega
    · rw [if_pos heq, if_neg heq, List.length_append, hdlen]
      norm_num
  · intro i x y hx hy
    have hia : i < a'.length := (List.getElem?_eq_some.mp hx).1
    have hib : i < b'.length := (List.getElem?_eq_some.mp hy).1
    have hz : (a'.zip b')[i]? = some (x, y) :=
      List.getElem?_zip_eq_some.mpr ⟨hx, hy⟩
    have hdi : diff[i]? = some (if x ≠ y then (1 : Int) else 0) := by
      rw [hdiff, List.getElem?_map, hz]
      rfl
    rw [hcm]
    by_cases heq : a'.length = b'.length
    · rw [if_neg (by simp [heq])]
      exact hdi
    · rw [if_pos heq, List.getElem?_append,
        if_pos (by rw [hdlen]; exact lt_min hia hib)]
      exact hdi
  · intro hne
    rw [hcm, if_pos hne]
    exact List.getLast?_concat diff

/-- Witness for the amended C9: differing component and differing
truncated lengths on concrete vectors. -/
theorem compare_machines_flags_witness :
    (Patchbot.compare_machines ["os", "v1"] ["os", "v2", "extra"] none)[1]? =
      some 1 ∧
    (Patchbot.compare_machines ["os", "v1"]
      ["os", "v2", "extra"] none).getLast? = some 1 := by
  constructor
  · have h := (compare_machines_flags ["os", "v1"] ["os", "v2", "extra"]
      none).2.1 1 "v1" "v2" rfl rfl
    rw [if_pos (by decide : ("v1" : String) ≠ "v2")] at h
    exact h
  · exact (compare_machines_flags ["os", "v1"] ["os", "v2", "extra"]
      none).2.2 (by decide)

/-! Order-theoretic lemmas about the Python tuple comparison, needed
for the ticket-selection claim. -/

lemma pyListLt_nil : ∀ b, Patchbot.pyListLt b [] = false := by
  intro b
  cases b <;> rfl

lemma pyListLt_irrefl : ∀ a, Patchbot.pyListLt a a = false := by
  intro a
  induction a with
  | nil => rfl
  | cons x xs ih => simp [Patchbot.pyListLt, lt_irrefl, ih]

lemma pyListLt_trans :
    ∀ a b c, Patchbot.pyListLt a b = true → Patchbot.pyListLt b c = true →
      Patchbot.pyListLt a c = true := by
  intro a
  induction a with
  | nil =>
    intro b c _ hbc
    cases c with
    | nil =>
      rw [pyListLt_nil] at hbc
      cases hbc
    | cons z zs => rfl
  | cons x xs ih =>
    intro b c hab hbc
    cases b with
    | nil =>
      rw [pyListLt_nil] at hab
      cases hab
    | cons y ys =>
      cases c with
      | nil =>
        rw [pyListLt_nil] at hbc
        cases hbc
      | cons z zs =>
        simp only [Patchbot.pyListLt] at hab hbc ⊢
        by_cases h1 : x < y
        · by_cases h2 : y < z
          · simp [lt_trans h1 h2]
          · by_cases h3 : z < y
            · simp [h2, h3] at hbc
            · have hyz : y = z := le_antisymm (not_lt.mp h3) (not_lt.mp h2)
              simp [hyz ▸ h1]
        · by_cases h1' : y < x
          · simp [h1, h1'] at hab
          · have hxy : x = y :=
              le_antisymm (not_lt.mp h1') (not_lt.mp h1)
            subst hxy
            simp only [lt_irrefl, if_false] at hab
            by_cases h2 : x < z
            · simp [h2]
            · by_cases h3 : z < x
              · simp [h2, h3] at hbc
              · have hxz : x = z :=
                  le_antisymm (not_lt.mp h3) (not_lt.mp h2)
                subst hxz
                simp only [lt_irrefl, if_false] at hbc ⊢
                exact ih ys zs hab hbc

lemma pyListLt_connex :
    ∀ a b, Patchbot.pyListLt a b = false → Patchbot.pyListLt b a = false →
      a = b := by
  intro a
  induction a with
  | nil =>
    intro b h1 h2
    cases b with
    | nil => rfl
    | cons y ys => simp [Patchbot.pyListLt] at h1
  | cons x xs ih =>
    intro b h1 h2
    cases b with
    | nil => simp [Patchbot.pyListLt] at h2
    | cons y ys =>
      simp only [Patchbot.pyListLt] at h1 h2
      by_cases hxy : x < y
      · simp [hxy] at h1
      · by_cases hyx : y < x
        · simp [hyx, hxy] at h2
        · have hx : x = y := le_antisymm (not_lt.mp hyx) (not_lt.mp hxy)
          subst hx
          simp only [lt_irrefl, if_false] at h1 h2
          rw [ih ys h1 h2]

lemma pyListLt_asymm {a b : List Int}
    (h : Patchbot.pyListLt a b = true) : Patchbot.pyListLt b a = false := by
  cases hba : Patchbot.pyListLt b a
  · rfl
  · have := pyListLt_trans a b a h hba
    rw [pyListLt_irrefl] at this
    cases this

lemma ratingLt_iff (x y : Patchbot.Rating) :
    Patchbot.ratingLt x y = true ↔
      Patchbot.pyListLt x.1 y.1 = true ∨
        (x.1 = y.1 ∧ (x.2.1 < y.2.1 ∨
          (x.2.1 = y.2.1 ∧ x.2.2 < y.2.2))) := by
  simp [Patchbot.ratingLt, Bool.or_eq_true, Bool.and_eq_true,
    beq_iff_eq, decide_eq_true_eq]

lemma ratingLt_irrefl (x : Patchbot.Rating) :
    Patchbot.ratingLt x x = false := by
  cases h : Patchbot.ratingLt x x
  · rfl
  · exfalso
    rcases (ratingLt_iff x x).mp h with h1 | ⟨_, h2 | ⟨_, h3⟩⟩
    · rw [pyListLt_irrefl] at h1; cases h1
    · exact lt_irrefl _ h2
    · exact lt_irrefl _ h3

lemma ratingLt_trans {x y z : Patchbot.Rating}
    (hxy : Patchbot.ratingLt x y = true)
    (hyz : Patchbot.ratingLt y z = true) :
    Patchbot.ratingLt x z = true := by
  rcases (ratingLt_iff x y).mp hxy with h1 | ⟨he1, hi1⟩
  · rcases (ratingLt_iff y z).mp hyz with h2 | ⟨he2, _⟩
    · exact (ratingLt_iff x z).mpr (Or.inl (pyListLt_trans _ _ _ h1 h2))
    · exact (ratingLt_iff x z).mpr (Or.inl (he2 ▸ h1))
  · rcases (ratingLt_iff y z).mp hyz with h2 | ⟨he2, hi2⟩
    · exact (ratingLt_iff x z).mpr (Or.inl (he1 ▸ h2))
    · refine (ratingLt_iff x z).mpr (Or.inr ⟨he1.trans he2, ?_⟩)
      rcases hi1 with ha1 | ⟨hb1, hc1⟩ <;> rcases hi2 with ha2 | ⟨hb2, hc2⟩
      · exact Or.inl (lt_trans ha1 ha2)
      · exact Or.inl (hb2 ▸ ha1)
      · exact Or.inl (hb1 ▸ ha2)
      · exact Or.inr ⟨hb1.trans hb2, lt_trans hc1 hc2⟩

lemma ratingLt_connex {x y : Patchbot.Rating}
    (h1 : Patchbot.ratingLt x y = false)
    (h2 : Patchbot.ratingLt y x = false) : x = y := by
  obtain ⟨u1, a1, b1⟩ := x
  obtain ⟨u2, a2, b2⟩ := y
  have n1 : ¬(Patchbot.ratingLt (u1, a1, b1) (u2, a2, b2) = true) := by
    rw [h1]; simp
  have n2 : ¬(Patchbot.ratingLt (u2, a2, b2) (u1, a1, b1) = true) := by
    rw [h2]; simp
  rw [ratingLt_iff] at n1 n2
  push_neg at n1 n2
  have hu12 : Patchbot.pyListLt u1 u2 = false := by
    cases hh : Patchbot.pyListLt u1 u2
    · rfl
    · exact absurd hh n1.1
  have hu21 : Patchbot.pyListLt u2 u1 = false := by
    cases hh : Patchbot.pyListLt u2 u1
    · rfl
    · exact absurd hh n2.1
  have hu : u1 = u2 := pyListLt_connex u1 u2 hu12 hu21
  have i1 := n1.2 hu
  have i2 := n2.2 hu.symm
  push_neg at i1 i2
  have ha : a1 = a2 := le_antisymm i2.1 i1.1
  have hb : b1 = b2 := le_antisymm (i2.2 ha.symm) (i1.2 ha)
  rw [hu, ha, hb]

lemma candidate_le_trans :
    ∀ p q r : Patchbot.Rating × Nat,
      Patchbot.candidate_le p q = true → Patchbot.candidate_le q r = true →
      Patchbot.candidate_le p r = true := by
  intro p q r hpq hqr
  simp only [Patchbot.candidate_le, Bool.not_eq_true'] at hpq hqr ⊢
  cases hrp : Patchbot.ratingLt r.1 p.1
  · rfl
  · exfalso
    cases hqr' : Patchbot.ratingLt q.1 r.1
    · have heq : q.1 = r.1 := ratingLt_connex hqr' hqr
      rw [← heq] at hrp
      rw [hrp] at hpq
      cases hpq
    · have htr := ratingLt_trans hqr' hrp
      rw [htr] at hpq
      cases hpq

lemma candidate_le_total :
    ∀ p q : Patchbot.Rating × Nat,
      (Patchbot.candidate_le p q || Patchbot.candidate_le q p) = true := by
  intro p q
  simp only [Patchbot.candidate_le, Bool.or_eq_true, Bool.not_eq_true']
  cases h1 : Patchbot.ratingLt q.1 p.1
  · exact Or.inl rfl
  · cases h2 : Patchbot.ratingLt p.1 q.1
    · exact Or.inr rfl
    · exfalso
      have := ratingLt_trans h1 h2
      rw [ratingLt_irrefl] at this
      cases this

/-! Correctness of the insertion sort used to model `list.sort()`. -/

lemma mem_insert_le {α : Type} {le : α → α → Bool} {x a : α} :
    ∀ {l : List α}, a ∈ Patchbot.insert_le le x l ↔ a = x ∨ a ∈ l := by
  intro l
  induction l with
  | nil => simp [Patchbot.insert_le]
  | cons y ys ih =>
    by_cases h : le x y = true
    · rw [Patchbot.insert_le, if_pos h]
      simp
    · rw [Patchbot.insert_le, if_neg h]
      simp only [List.mem_cons, ih]
      tauto

lemma insert_le_perm {α : Type} (le : α → α → Bool) (x : α) :
    ∀ l : List α, (Patchbot.insert_le le x l).Perm (x :: l) := by
  intro l
  induction l with
  | nil => exact List.Perm.refl _
  | cons y ys ih =>
    by_cases h : le x y = true
    · rw [Patchbot.insert_le, if_pos h]
    · rw [Patchbot.insert_le, if_neg h]
      exact (ih.cons y).trans (List.Perm.swap x y ys)

lemma sort_le_perm {α : Type} (le : α → α → Bool) :
    ∀ l : List α, (Patchbot.sort_le le l).Perm l := by
  intro l
  induction l with
  | nil => exact List.Perm.refl _
  | cons x xs ih =>
    rw [Patchbot.sort_le]
    exact (insert_le_perm le x (Patchbot.sort_le le xs)).trans (ih.cons x)

lemma insert_le_pairwise {α : Type} {le : α → α → Bool}
    (htrans : ∀ a b c, le a b = true → le b c = true → le a c = true)
    (htotal : ∀ a b, (le a b || le b a) = true) (x : α) :
    ∀ {l : List α}, l.Pairwise (le · · = true) →
      (Patchbot.insert_le le x l).Pairwise (le · · = true) := by
  intro l
  induction l with
  | nil =>
    intro _
    simp [Patchbot.insert_le]
  | cons y ys ih =>
    intro hp
    obtain ⟨hy, hys⟩ := List.pairwise_cons.mp hp
    by_cases h : le x y = true
    · rw [Patchbot.insert_le, if_pos h]
      refine List.pairwise_cons.mpr ⟨?_, hp⟩
      intro b hb
      rcases List.mem_cons.mp hb with rfl | hbys
      · exact h
      · exact htrans x y b h (hy b hbys)
    · rw [Patchbot.insert_le, if_neg h]
      refine List.pairwise_cons.mpr ⟨?_, ih hys⟩
      intro b hb
      rcases mem_insert_le.mp hb with rfl | hbys
      · have htot := htotal b y
        cases h1 : le b y with
        | true => exact absurd h1 h
        | false =>
          rw [h1, Bool.false_or] at htot
          exact htot
      · exact hy b hbys

lemma sort_le_pairwise {α : Type} {le : α → α → Bool}
    (htrans : ∀ a b c, le a b = true → le b c = true → le a c = true)
    (htotal : ∀ a b, (le a b || le b a) = true) :
    ∀ l : List α, (Patchbot.sort_le le l).Pairwise (le · · = true) := by
  intro l
  induction l with
  | nil => exact List.Pairwise.nil
  | cons x xs ih =>
    rw [Patchbot.sort_le]
    exact insert_le_pairwise htrans htotal x ih

/-- In a list pairwise-related by `R`, every element other than the last
one is `R`-related to the last one. -/
lemma pairwise_getLast {α : Type} {R : α → α → Prop} :
    ∀ {l : List α}, l.Pairwise R → ∀ {a : α}, l.getLast? = some a →
      ∀ b ∈ l, b = a ∨ R b a := by
  intro l
  induction l with
  | nil =>
    intro _ a h
    simp at h
  | cons x xs ih =>
    intro hp a hlast b hb
    cases xs with
    | nil =>
      simp only [List.getLast?_singleton, Option.some.injEq] at hlast
      rcases List.mem_singleton.mp hb with rfl
      exact Or.inl hlast
    | cons y ys =>
      have hlast' : (y :: ys).getLast? = some a := by
        rw [List.getLast?_cons_cons] at hlast
        exact hlast
      rcases List.mem_cons.mp hb with rfl | h1
      · have hmem : a ∈ y :: ys := by
          obtain ⟨ys', hys'⟩ := List.getLast?_eq_some_iff.mp hlast'
          rw [hys']
          simp
        exact Or.inr ((List.pairwise_cons.mp hp).1 a hmem)
      · exact ih (List.pairwise_cons.mp hp).2 hlast' b h1

/-! Claim C4 about `get_one_ticket`. -/

lemma get_one_ticket_eq (rate : Nat → Option Patchbot.Rating)
    (tickets : List Nat) :
    Patchbot.get_one_ticket rate tickets =
      match (Patchbot.sort_le Patchbot.candidate_le
          (tickets.filterMap (fun x =>
            match rate x with
            | some r => some (r, x)
            | none => none))).getLast? with
      | some best => .ok best
      | none => .error "IndexError: list index out of range" := by
  unfold Patchbot.get_one_ticket
  dsimp only
  rw [List.filterMap_map]
  rfl

lemma mem_rated_surv {rate : Nat → Option Patchbot.Rating}
    {tickets : List Nat} {r : Patchbot.Rating} {t : Nat} :
    (r, t) ∈ tickets.filterMap (fun x =>
        match rate x with
        | some rr => some (rr, x)
        | none => none) ↔
      t ∈ tickets ∧ rate t = some r := by
  rw [List.mem_filterMap]
  constructor
  · rintro ⟨x, hx, hfx⟩
    cases hrx : rate x with
    | none =>
      rw [hrx] at hfx
      cases hfx
    | some rr =>
      rw [hrx] at hfx
      simp only [Option.some.injEq, Prod.mk.injEq] at hfx
      obtain ⟨rfl, rfl⟩ := hfx
      exact ⟨hx, hrx⟩
  · rintro ⟨ht, hrt⟩
    exact ⟨t, ht, by rw [hrt]⟩

/-- Counterexample for C4: when every candidate is rated `None`, the
final `all[-1]` lookup raises an `IndexError`; the function does not
return `None`. -/
theorem get_one_ticket_empty_counterexample :
    Patchbot.get_one_ticket (fun _ => none) [5] =
      .error "IndexError: list index out of range" := rfl

/-- C4 as amended: `get_one_ticket` rates every candidate, discards the
`None` ratings, and returns a surviving candidate whose rating triple is
lexicographically maximal (so among survivors sharing uniqueness vector
and score, the returned `-id` component is largest, i.e. the id is
smallest); when no candidate survives it raises an `IndexError`
(`all[-1]` on an empty list) instead of returning `None`. -/
theorem get_one_ticket_selects_max :
    ∀ (rate : Nat → Option Patchbot.Rating) (tickets : List Nat),
      ((∀ t ∈ tickets, rate t = none) →
        Patchbot.get_one_ticket rate tickets =
          .error "IndexError: list index out of range") ∧
      (∀ (r : Patchbot.Rating) (t : Nat),
        Patchbot.get_one_ticket rate tickets = .ok (r, t) →
        t ∈ tickets ∧ rate t = some r ∧
        ∀ (t' : Nat) (r' : Patchbot.Rating),
          t' ∈ tickets → rate t' = some r' →
          Patchbot.ratingLt r r' = false ∧
          (r'.1 = r.1 → r'.2.1 = r.2.1 → r'.2.2 ≤ r.2.2)) := by
  intro rate tickets
  constructor
  · intro hall
    rw [get_one_ticket_eq]
    have hempty : tickets.filterMap (fun x =>
        match rate x with
        | some r => some (r, x)
        | none => none) = [] := by
      rw [List.filterMap_eq_nil_iff]
      intro x hx
      rw [hall x hx]
    rw [hempty]
    rfl
  · intro r t hok
    rw [get_one_ticket_eq] at hok
    set surv := tickets.filterMap (fun x =>
      match rate x with
      | some r => some (r, x)
      | none => none) with hsurv
    set sorted := Patchbot.sort_le Patchbot.candidate_le surv with hsorted
    cases hlast : sorted.getLast? with
    | none =>
      rw [hlast] at hok
      cases hok
    | some best =>
      rw [hlast] at hok
      have hbest : best = (r, t) := by
        cases hok
        rfl
      subst hbest
      have hmem_sorted : (r, t) ∈ sorted := by
        obtain ⟨ys, hys⟩ := List.getLast?_eq_some_iff.mp hlast
        rw [hys]
        simp
      have hmem_surv : (r, t) ∈ surv :=
        (sort_le_perm Patchbot.candidate_le surv).mem_iff.mp hmem_sorted
      obtain ⟨ht, hrt⟩ := mem_rated_surv.mp hmem_surv
      refine ⟨ht, hrt, ?_⟩
      intro t' r' ht' hrt'
      have hmem' : (r', t') ∈ sorted :=
        (sort_le_perm Patchbot.candidate_le surv).mem_iff.mpr
          (mem_rated_surv.mpr ⟨ht', hrt'⟩)
      have hpw := sort_le_pairwise candidate_le_trans candidate_le_total surv
      have hrel := pairwise_getLast hpw hlast (r', t') hmem'
      have hnotlt : Patchbot.ratingLt r r' = false := by
        rcases hrel with heq | hle
        · have : r' = r := congrArg Prod.fst heq
          rw [this]
          exact ratingLt_irrefl r
        · simpa [Patchbot.candidate_le, Bool.not_eq_true'] using hle
      refine ⟨hnotlt, ?_⟩
      intro hu ha
      by_contra hb
      push_neg at hb
      have : Patchbot.ratingLt r r' = true :=
        (ratingLt_iff r r').mpr
          (Or.inr ⟨hu.symm, Or.inr ⟨ha.symm, hb⟩⟩)
      rw [this] at hnotlt
      cases hnotlt

/-- Witness for the amended C4: among candidates 3 (rated `None`), 10
and 4 (equal uniqueness and score), ticket 4 is returned and its rating
dominates ticket 10's. -/
theorem get_one_ticket_selects_max_witness :
    Patchbot.ratingLt ([1], 5, -4) ([1], 5, -10) = false ∧
    ((-10 : Int) ≤ -4) := by
  have h := (get_one_ticket_selects_max
    (fun t => if t == 3 then none
      else some (([1], 5, -(t : Int)) : Patchbot.Rating)) [3, 10, 4]).2
    ([1], 5, -4) 4 rfl
  have hm := h.2.2 10 ([1], 5, -10) (by decide) rfl
  exact ⟨hm.1, hm.2 rfl rfl⟩

/-! Claims C5 and C6 about `rate_ticket`. -/

/-- C5: evaluation of `rate_ticket` at a ticket that passes every gate
but whose only current report recorded no baseline (`git_base` absent).
The loop body skips the distance block, leaving the local
`only_in_base` unassigned, and the subsequent
`if only_in_base and not any(report_uniqueness)` raises
`UnboundLocalError` — the rating pass aborts instead of substituting a
conservative distance. -/
theorem rate_ticket_unbound_local :
    Patchbot.rate_ticket
      ⟨fun _ => 0, ["alice"], ["Ubuntu", "x86"], some 5⟩
      (fun _ => some 0) [] 0
      ⟨7, some "branch", "needs_review", "sage-6.4", ["alice"], [], [],
        none, "major", false⟩
      [⟨["Fedora"], none, "TestsPassed"⟩] =
      .error "UnboundLocalError: local variable only_in_base referenced before assignment" :=
  rfl

lemma rate_authors_some (trusted : List String) (bonus : String → Int) :
    ∀ (l : List String) (acc : Int), (∀ a ∈ l, a ∈ trusted) →
      ∃ v, Patchbot.rate_authors trusted bonus l acc = some v := by
  intro l
  induction l with
  | nil =>
    intro acc _
    exact ⟨acc, rfl⟩
  | cons a rest ih =>
    intro acc hall
    have ha : a ∈ trusted := hall a (List.mem_cons_self _ _)
    rw [Patchbot.rate_authors, if_pos ha]
    exact ih _ (fun b hb => hall b (List.mem_cons_of_mem _ hb))

lemma mem_zip_self {α : Type} :
    ∀ {l : List α} {p : α × α}, p ∈ l.zip l → p.1 = p.2 := by
  intro l
  induction l with
  | nil =>
    intro p h
    simp at h
  | cons x xs ih =>
    intro p h
    rw [List.zip_cons_cons] at h
    rcases List.mem_cons.mp h with rfl | h1
    · rfl
    · exact ih h1

lemma compare_machines_self_all_zero (a : List String) (mm : Option Nat) :
    (Patchbot.compare_machines a a mm).all (· == 0) = true := by
  unfold Patchbot.compare_machines
  dsimp only
  rw [if_neg (by simp)]
  rw [List.all_eq_true]
  intro x hx
  rw [List.mem_map] at hx
  obtain ⟨p, hp, rfl⟩ := hx
  rw [if_neg (by simp [mem_zip_self hp])]
  rfl

lemma pymin_all_zero {b : List Int} (hb : b.all (· == 0) = true) :
    (Patchbot.pymin [100] b).all (· == 0) = true := by
  unfold Patchbot.pymin
  have hlt : Patchbot.pyListLt b [100] = true := by
    cases b with
    | nil => rfl
    | cons x xs =>
      have hx : x = 0 := by
        have := List.all_eq_true.mp hb x (List.mem_cons_self _ _)
        exact eq_of_beq this
      subst hx
      rw [Patchbot.pyListLt, if_pos (by norm_num)]
  rw [if_pos hlt]
  exact hb

lemma scan_report_self {cfg : Patchbot.Config} {gitD : String → Option Int}
    (r : Patchbot.PReport) (gb : String) (rating : Int) (uniq : List Int)
    (oib₀ : Option Int) (hmach : r.machine = cfg.machine)
    (hgb : r.git_base = some gb) (hgbne : gb ≠ "")
    (hdist : gitD gb = some 0) :
    ∃ rating₂, Patchbot.scan_report cfg gitD (rating, uniq, oib₀) r =
      .ok (rating₂,
        Patchbot.pymin uniq
          (Patchbot.compare_machines cfg.machine cfg.machine
            cfg.machine_match),
        some 0) := by
  have hie : gb.isEmpty = false := by
    cases hie : gb.isEmpty
    · rfl
    · exact absurd ((String.isEmpty_iff gb).mp hie) hgbne
  have htr : truthyStr (some gb) = true := by
    simp [truthyStr, hie]
  unfold Patchbot.scan_report
  simp only [hgb, htr, if_true, Option.getD_some, hdist, hmach,
    mul_zero, add_zero]
  have hcond : (decide (¬(0 : Int) = 0) &&
      (Patchbot.compare_machines cfg.machine cfg.machine
        cfg.machine_match).all (fun x => x == 0)) = false := by
    simp
  rw [hcond, if_neg (show ¬(false = true) by decide)]
  exact ⟨_, rfl⟩

/-- C6.  A ticket that passes every eligibility gate, is not flagged
for retry, and whose single current report comes from a machine with
the identical identity vector and a commit distance of zero, is rated
`None`: the uniqueness vector collapses to all-zero and the duplicate
check suppresses the ticket. -/
theorem rate_ticket_duplicate_suppression :
    ∀ (cfg : Patchbot.Config) (gitDistance : String → Option Int)
      (to_skip : List (Nat × Int)) (now : Int) (t : Patchbot.PTicket)
      (r : Patchbot.PReport) (gb : String),
      t.id ≠ 0 →
      truthyStr t.git_branch = true →
      ["needs_review", "positive_review", "needs_info",
        "needs_work"].contains t.status = true →
      ["sage-duplicate/invalid/wontfix", "sage-feature", "sage-pending",
        "sage-wishlist"].contains t.milestone = false →
      t.authors_fullnames ≠ [] →
      (∀ a ∈ t.authors_fullnames, a ∈ cfg.trusted_authors) →
      t.retry = false →
      r.machine = cfg.machine →
      r.git_base = some gb →
      gb ≠ "" →
      gitDistance gb = some 0 →
      Patchbot.rate_ticket cfg gitDistance to_skip now t [r] =
        .ok none := by
  intro cfg gitD to_skip now t r gb hid hbranch hstatus hmile hne htrusted
    hretry hmach hgb hgbne hdist
  obtain ⟨v, hv⟩ :=
    rate_authors_some cfg.trusted_authors cfg.bonus t.authors_fullnames 0
      htrusted
  obtain ⟨rating₂, hscan⟩ :=
    scan_report_self r gb
      (v + (t.authors.map (fun a => 2 * cfg.bonus a)).sum
        + (t.participants.map (fun p => cfg.bonus p)).sum
        + (match t.component with
          | some c => cfg.bonus c
          | none => 0)
        + cfg.bonus t.status + cfg.bonus t.priority
        + cfg.bonus (toString t.id))
      [100] none hmach hgb hgbne hdist
  unfold Patchbot.rate_ticket
  rw [if_neg (show ¬((t.id == 0) = true) by simp [hid]),
    if_neg (show ¬((!truthyStr t.git_branch) = true) by
      rw [hbranch]; decide),
    if_neg (show ¬((!(["needs_review", "positive_review", "needs_info",
      "needs_work"].contains t.status)) = true) by rw [hstatus]; decide),
    if_neg (show ¬((["sage-duplicate/invalid/wontfix", "sage-feature",
      "sage-pending", "sage-wishlist"].contains t.milestone) = true) by
        rw [hmile]; decide),
    if_neg (show ¬(t.authors_fullnames.isEmpty = true) by
      simp [List.isEmpty_iff, hne]),
    hv]
  dsimp only
  rw [if_neg (show ¬(t.retry = true) by simp [hretry])]
  have hfold : List.foldlM (Patchbot.scan_report cfg gitD)
      ((v + (t.authors.map (fun a => 2 * cfg.bonus a)).sum
        + (t.participants.map (fun p => cfg.bonus p)).sum
        + (match t.component with
          | some c => cfg.bonus c
          | none => 0)
        + cfg.bonus t.status + cfg.bonus t.priority
        + cfg.bonus (toString t.id)), [100], none) [r] =
      Except.ok (rating₂,
        Patchbot.pymin [100]
          (Patchbot.compare_machines cfg.machine cfg.machine
            cfg.machine_match),
        some 0) := by
    rw [List.foldlM_cons, hscan]
    rfl
  rw [hfold]
  dsimp only
  rw [if_pos (pymin_all_zero
    (compare_machines_self_all_zero cfg.machine cfg.machine_match))]

/-- Witness for C6 at fully concrete inputs. -/
theorem rate_ticket_duplicate_suppression_witness :
    Patchbot.rate_ticket
      ⟨fun _ => 0, ["alice"], ["Ubuntu", "16.04", "x86_64"], some 5⟩
      (fun _ => some 0) [] 0
      ⟨7, some "branch", "needs_review", "sage-6.4", ["alice"], [], [],
        none, "major", false⟩
      [⟨["Ubuntu", "16.04", "x86_64"], some "deadbeef", "TestsPassed"⟩] =
      .ok none :=
  rate_ticket_duplicate_suppression
    ⟨fun _ => 0, ["alice"], ["Ubuntu", "16.04", "x86_64"], some 5⟩
    (fun _ => some 0) [] 0
    ⟨7, some "branch", "needs_review", "sage-6.4", ["alice"], [], [],
      none, "major", false⟩
    ⟨["Ubuntu", "16.04", "x86_64"], some "deadbeef", "TestsPassed"⟩
    "deadbeef" (by decide) rfl rfl rfl (by decide) (by decide) rfl rfl rfl
    (by decide) rfl

end SagePatchbot
